import Mathlib

set_option autoImplicit false

namespace BestCave

/-! Shallow embedding of the duplicate-detection core of the best-cave plugin.

The hashing primitives (HashManager.calculateHammingDistance,
HashManager.calculateSimilarity, HashManager.generateTextSimhash, the
post-DCT part of HashManager.generatePHash, HashManager.sanitizeImageBuffer),
the LSH candidate generator (Utils.generateFromLSH), the LLM JSON extraction
of AIManager.requestAI and the ingest pipeline Utils.processNewCave are
translated into executable Lean definitions.  JavaScript numbers on the
similarity path are modelled as exact rationals, byte buffers as lists of
naturals, and external effects (HTTP, Jimp image decoding, MD5, the LLM)
as explicit oracle parameters. -/

/-- Numeric value of a hexadecimal digit character, as in the JavaScript
expression parseInt(char, 16) restricted to valid hex digits. -/
def hexVal (c : Char) : Nat :=
  if '0' ≤ c ∧ c ≤ '9' then c.toNat - '0'.toNat
  else if 'a' ≤ c ∧ c ≤ 'f' then c.toNat - 'a'.toNat + 10
  else if 'A' ≤ c ∧ c ≤ 'F' then c.toNat - 'A'.toNat + 10
  else 0

/-- Whether a character is a hexadecimal digit accepted by parseInt(c, 16). -/
def isHexDigit (c : Char) : Bool :=
  (('0' ≤ c) && (c ≤ '9')) || (('a' ≤ c) && (c ≤ 'f')) || (('A' ≤ c) && (c ≤ 'F'))

/-- A string all of whose characters are hexadecimal digits. -/
def IsHexString (s : String) : Prop := ∀ c ∈ s.data, isHexDigit c = true

instance (s : String) : Decidable (IsHexString s) := by
  unfold IsHexString; infer_instance

/-- The four bits of parseInt(char, 16).toString(2).padStart(4, '0'),
most significant bit first. -/
def hexCharBits (c : Char) : List Bool :=
  [(hexVal c).testBit 3, (hexVal c).testBit 2, (hexVal c).testBit 1, (hexVal c).testBit 0]

/-- Binary expansion of a hex string, one list entry per bit, as built by the
loop in HashManager.calculateHammingDistance. -/
def hexBits (s : String) : List Bool :=
  (s.data.map hexCharBits).flatten

/-- HashManager.calculateHammingDistance: expand both hex strings to binary
and count differing positions over the shorter expansion. -/
def calculateHammingDistance (hex1 hex2 : String) : Nat :=
  ((hexBits hex1).zip (hexBits hex2)).countP (fun p => p.1 != p.2)

/-- HashManager.calculateSimilarity: percentage from the Hamming distance,
over max-length times four bits; 100 when both strings are empty. -/
def calculateSimilarity (hex1 hex2 : String) : ℚ :=
  let distance : ℚ := calculateHammingDistance hex1 hex2
  let hashLength : ℚ := (max hex1.length hex2.length) * 4
  if hashLength = 0 then 100 else (1 - distance / hashLength) * 100

/-- Modelled from the spec wording: bit number i of the binary expansion of a
hex string (big-endian within each digit). -/
def hexBit (s : String) (i : Nat) : Bool :=
  (hexVal (s.data.getD (i / 4) '0')).testBit (3 - i % 4)

/-- Modelled from the spec wording: the count of differing bits over the two
expansions compared on min(bitLen) bits. -/
def hammingDistanceSpec (h1 h2 : String) : Nat :=
  (Finset.range (min (4 * h1.length) (4 * h2.length))).sum
    (fun i => if hexBit h1 i = hexBit h2 i then 0 else 1)

theorem hexBitsList_length (l : List Char) : ((l.map hexCharBits).flatten).length = 4 * l.length := by
  induction l with
  | nil => simp
  | cons c t ih => simp [hexCharBits] at ih ⊢; omega

theorem hexBits_length (s : String) : (hexBits s).length = 4 * s.length := by
  unfold hexBits
  exact hexBitsList_length s.data

theorem hexBits_getD (l : List Char) (i : Nat) (h : i < 4 * l.length) :
    ((l.map hexCharBits).flatten).getD i false
      = (hexVal (l.getD (i / 4) '0')).testBit (3 - i % 4) := by
  induction l generalizing i with
  | nil => simp at h
  | cons c t ih =>
    by_cases hi : i < 4
    · interval_cases i <;> simp [hexCharBits]
    · push_neg at hi
      obtain ⟨j, rfl⟩ : ∃ j, i = j + 4 := ⟨i - 4, by omega⟩
      have hj : j < 4 * t.length := by simp [List.length_cons] at h; omega
      have := ih j hj
      simp only [List.map_cons, List.flatten, hexCharBits]
      rw [List.getD_eq_getElem?_getD] at *
      have hgx : (j + 4) / 4 = j / 4 + 1 := by omega
      have hmx : (j + 4) % 4 = j % 4 := by omega
      simp only [List.cons_append, List.getElem?_cons_succ, List.nil_append] at *
      rw [hgx, hmx]
      simpa [hexCharBits] using this

theorem zip_countP_eq_sum (l1 l2 : List Bool) :
    ((l1.zip l2).countP (fun p => p.1 != p.2))
      = (Finset.range (min l1.length l2.length)).sum
          (fun i => if l1.getD i false = l2.getD i false then 0 else 1) := by
  induction l1 generalizing l2 with
  | nil => simp
  | cons a t1 ih =>
    cases l2 with
    | nil => simp
    | cons b t2 =>
      have hmin : min (t1.length + 1) (t2.length + 1) = min t1.length t2.length + 1 := by
        omega
      simp only [List.zip_cons_cons, List.countP_cons, List.length_cons, hmin,
        Finset.sum_range_succ']
      rw [ih t2]
      simp only [List.getD_cons_succ, List.getD_cons_zero]
      by_cases hab : a = b <;> simp [hab, bne, Nat.add_comm]

/-- The Hamming distance computed by the code equals the spec description:
the number of positions below min(bitLen) where the expansions differ. -/
theorem calculateHammingDistance_eq_spec (h1 h2 : String) :
    calculateHammingDistance h1 h2 = hammingDistanceSpec h1 h2 := by
  unfold calculateHammingDistance hammingDistanceSpec
  rw [zip_countP_eq_sum, hexBits_length, hexBits_length]
  apply Finset.sum_congr rfl
  intro i hi
  simp only [Finset.mem_range, lt_min_iff] at hi
  unfold hexBits hexBit
  rw [hexBits_getD _ _ hi.1, hexBits_getD _ _ hi.2]

theorem hammingDistanceSpec_comm (a b : String) :
    hammingDistanceSpec a b = hammingDistanceSpec b a := by
  unfold hammingDistanceSpec
  rw [min_comm]
  apply Finset.sum_congr rfl
  intro i _
  by_cases h : hexBit a i = hexBit b i
  · simp [h]
  · simp [h, Ne.symm h]

/-- C5: the Hamming distance counts differing bits on min(bitLen) bits, and
the similarity is the stated percentage formula, 100 when both hex strings
are empty. -/
theorem C5_distance_similarity (h1 h2 : String)
    (hx1 : IsHexString h1) (hx2 : IsHexString h2) :
    calculateHammingDistance h1 h2 = hammingDistanceSpec h1 h2
    ∧ calculateSimilarity h1 h2
        = (1 - (calculateHammingDistance h1 h2 : ℚ)
            / (4 * (max h1.length h2.length : ℕ))) * 100
    ∧ calculateSimilarity "" "" = 100 := by
  refine ⟨calculateHammingDistance_eq_spec h1 h2, ?_, by simp [calculateSimilarity]⟩
  simp only [calculateSimilarity]
  by_cases h : max h1.length h2.length = 0
  · have hl1 : h1.length = 0 := by omega
    have hd : calculateHammingDistance h1 h2 = 0 := by
      unfold calculateHammingDistance
      have hz : (hexBits h1).length = 0 := by rw [hexBits_length]; omega
      have hnil : hexBits h1 = [] := List.length_eq_zero.mp hz
      simp [hnil]
    simp [h, hd]
  · have hq : ((max h1.length h2.length : ℕ) : ℚ) * 4 ≠ 0 := by
      have hpos : (0:ℚ) < ((max h1.length h2.length : ℕ) : ℚ) := by
        exact_mod_cast Nat.pos_of_ne_zero h
      positivity
    rw [if_neg hq]
    ring_nf

/-- C6 as stated is false: the triangle inequality fails for hex strings of
different lengths, because the distance truncates to the shorter expansion.
Concretely d("00","ff") = 8 but d("00","f") + d("f","ff") = 4 + 0. -/
theorem C6_counterexample :
    ¬ (calculateHammingDistance "00" "ff"
        ≤ calculateHammingDistance "00" "f" + calculateHammingDistance "f" "ff") := by
  decide

/-- C6 amended: the Hamming distance is symmetric, and the triangle
inequality holds whenever the middle string is at least as long as the
shorter of the two outer strings (in particular for equal-length hashes). -/
theorem C6_symm_triangle (a b c : String)
    (hxa : IsHexString a) (hxb : IsHexString b) (hxc : IsHexString c) :
    calculateHammingDistance a b = calculateHammingDistance b a
    ∧ (min a.length c.length ≤ b.length →
        calculateHammingDistance a c
          ≤ calculateHammingDistance a b + calculateHammingDistance b c) := by
  constructor
  · rw [calculateHammingDistance_eq_spec, calculateHammingDistance_eq_spec]
    exact hammingDistanceSpec_comm a b
  · intro hlen
    rw [calculateHammingDistance_eq_spec, calculateHammingDistance_eq_spec,
      calculateHammingDistance_eq_spec]
    unfold hammingDistanceSpec
    set m := min (4 * a.length) (4 * c.length) with hm
    have hma : m ≤ 4 * a.length := by omega
    have hmb : m ≤ 4 * b.length := by omega
    have hmc : m ≤ 4 * c.length := by omega
    have key : ∀ x y z : Bool,
        (if x = z then 0 else 1) ≤ (if x = y then 0 else 1) + ((if y = z then 0 else 1) : ℕ) := by
      decide
    calc (Finset.range m).sum (fun i => if hexBit a i = hexBit c i then 0 else 1)
        ≤ (Finset.range m).sum
            (fun i => (if hexBit a i = hexBit b i then 0 else 1)
              + ((if hexBit b i = hexBit c i then 0 else 1) : ℕ)) := by
          exact Finset.sum_le_sum (fun i _ => key _ _ _)
      _ = (Finset.range m).sum (fun i => if hexBit a i = hexBit b i then 0 else 1)
            + (Finset.range m).sum (fun i => if hexBit b i = hexBit c i then 0 else 1) := by
          rw [Finset.sum_add_distrib]
      _ ≤ (Finset.range (min (4 * a.length) (4 * b.length))).sum
            (fun i => if hexBit a i = hexBit b i then 0 else 1)
            + (Finset.range (min (4 * b.length) (4 * c.length))).sum
            (fun i => if hexBit b i = hexBit c i then 0 else 1) := by
          exact Nat.add_le_add
            (Finset.sum_le_sum_of_subset (Finset.range_subset.mpr (by omega)))
            (Finset.sum_le_sum_of_subset (Finset.range_subset.mpr (by omega)))

/-- Witness for C5 at concrete hex strings. -/
theorem C5_witness :
    IsHexString "ff" ∧ IsHexString "0f"
    ∧ (calculateHammingDistance "ff" "0f" = hammingDistanceSpec "ff" "0f"
      ∧ calculateSimilarity "ff" "0f"
          = (1 - (calculateHammingDistance "ff" "0f" : ℚ)
              / (4 * (max "ff".length "0f".length : ℕ))) * 100
      ∧ calculateSimilarity "" "" = 100) :=
  ⟨by decide, by decide, C5_distance_similarity "ff" "0f" (by decide) (by decide)⟩

/-- Witness for the amended C6 at concrete hex strings. -/
theorem C6_witness :
    IsHexString "a1" ∧ IsHexString "b2" ∧ IsHexString "c3"
    ∧ (calculateHammingDistance "a1" "b2" = calculateHammingDistance "b2" "a1"
      ∧ (min "a1".length "c3".length ≤ "b2".length →
          calculateHammingDistance "a1" "c3"
            ≤ calculateHammingDistance "a1" "b2" + calculateHammingDistance "b2" "c3")) :=
  ⟨by decide, by decide, by decide,
    C6_symm_triangle "a1" "b2" "c3" (by decide) (by decide) (by decide)⟩

/-! Simhash (HashManager.generateTextSimhash).  The MD5 digest of a
one-character token is an external primitive and is passed in as an oracle
producing the digest bytes; everything else is translated from the source. -/

/-- Whitespace as matched by the JavaScript regex class backslash-s. -/
def isJsSpace (c : Char) : Bool := c.isWhitespace

/-- Big-endian value of a bit string, as computed by BigInt of a 0b literal. -/
def bitsToNat (l : List Bool) : Nat :=
  l.foldl (fun acc b => 2 * acc + (if b then 1 else 0)) 0

/-- BigInt.toString(16) followed by padStart(16, '0'): lowercase hex digits
of a natural number, left-padded with zeros to 16 characters. -/
def natToHexPad16 (n : Nat) : String :=
  let s := Nat.toDigits 16 n
  String.mk (List.replicate (16 - s.length) '0' ++ s)

/-- Bit i of the first eight digest bytes, exactly the source expression
(digest[floor(i/8)] >> (i % 8)) & 1. -/
def md5Bit (md5 : Char → List Nat) (token : Char) (i : Nat) : Bool :=
  (((md5 token).getD (i / 8) 0) >>> (i % 8)) &&& 1 = 1

/-- One iteration of the accumulator loop in generateTextSimhash: add +1 to
entry i when digest bit i is set and -1 otherwise. -/
def simhashStep (md5 : Char → List Nat) (v : List ℤ) (token : Char) : List ℤ :=
  (List.range 64).map (fun i => v.getD i 0 + (if md5Bit md5 token i then 1 else -1))

/-- HashManager.generateTextSimhash: lowercase, strip whitespace, split into
codepoints, deduplicate, accumulate signed bit counts, threshold at zero and
hex-encode.  The JavaScript Set preserves first-seen order; the accumulation
is order-independent, so deduplication is modelled with List.dedup. -/
def generateTextSimhash (md5 : Char → List Nat) (text : String) : String :=
  let cleanText := (text.data.map Char.toLower).filter (fun c => !(isJsSpace c))
  if cleanText.isEmpty then "" else
  let tokenArray := cleanText.dedup
  if tokenArray.isEmpty then "" else
  let vector := tokenArray.foldl (simhashStep md5) (List.replicate 64 (0 : ℤ))
  let binaryHash := vector.map (fun x => decide (0 < x))
  natToHexPad16 (bitsToNat binaryHash)

/-- Modelled from the spec wording: output bit i is 1 exactly when the sum
of plus-or-minus ones over the set of tokens is strictly positive. -/
def simhashBitSpec (md5 : Char → List Nat) (tokens : Finset Char) (i : Nat) : Bool :=
  decide (0 < tokens.sum (fun t => if md5Bit md5 t i then (1 : ℤ) else -1))

/-- Modelled from the spec wording: the 64 bits assembled big-endian (bit 0
most significant) and hex-encoded, empty when the cleaned input is empty. -/
def generateTextSimhashSpec (md5 : Char → List Nat) (text : String) : String :=
  let cleaned := (text.data.map Char.toLower).filter (fun c => !(isJsSpace c))
  if cleaned.isEmpty then "" else
  natToHexPad16 ((Finset.range 64).sum
    (fun i => if simhashBitSpec md5 cleaned.toFinset i then 2 ^ (63 - i) else 0))

theorem getD_map_range {α : Type} (n i : Nat) (f : Nat → α) (d : α) (h : i < n) :
    ((List.range n).map f).getD i d = f i := by
  rw [List.getD_eq_getElem?_getD, List.getElem?_map, List.getElem?_range h]
  rfl

theorem simhash_foldl_length (md5 : Char → List Nat) (tokens : List Char) (v0 : List ℤ) :
    tokens ≠ [] → (tokens.foldl (simhashStep md5) v0).length = 64 := by
  induction tokens generalizing v0 with
  | nil => intro h; exact absurd rfl h
  | cons t ts ih =>
    intro _
    by_cases hts : ts = []
    · subst hts; simp [simhashStep]
    · exact ih (simhashStep md5 v0 t) hts

theorem simhash_foldl_getD (md5 : Char → List Nat) (tokens : List Char)
    (v0 : List ℤ) (i : Nat) (h : i < 64) :
    (tokens.foldl (simhashStep md5) v0).getD i 0
      = v0.getD i 0 + (tokens.map (fun t => if md5Bit md5 t i then (1 : ℤ) else -1)).sum := by
  induction tokens generalizing v0 with
  | nil => simp
  | cons t ts ih =>
    simp only [List.foldl_cons, List.map_cons, List.sum_cons]
    rw [ih (simhashStep md5 v0 t)]
    unfold simhashStep
    rw [getD_map_range 64 i _ 0 h]
    ring

theorem bitsToNat_append_singleton (l : List Bool) (b : Bool) :
    bitsToNat (l ++ [b]) = 2 * bitsToNat l + (if b then 1 else 0) := by
  unfold bitsToNat
  rw [List.foldl_append]
  rfl

theorem bitsToNat_eq_sum (l : List Bool) :
    bitsToNat l = (Finset.range l.length).sum
      (fun i => if l.getD i false then 2 ^ (l.length - 1 - i) else 0) := by
  induction l using List.reverseRecOn with
  | nil => simp [bitsToNat]
  | append_singleton l b ih =>
    rw [bitsToNat_append_singleton, ih]
    simp only [List.length_append, List.length_singleton]
    rw [Finset.sum_range_succ]
    have hlast : (l ++ [b]).getD l.length false = b := by
      rw [List.getD_eq_getElem?_getD, List.getElem?_append_right (le_refl _)]
      simp
    rw [hlast]
    have hsub : l.length + 1 - 1 - l.length = 0 := by omega
    rw [hsub, pow_zero]
    congr 1
    rw [Finset.mul_sum]
    apply Finset.sum_congr rfl
    intro i hi
    simp only [Finset.mem_range] at hi
    have hgd : (l ++ [b]).getD i false = l.getD i false := by
      rw [List.getD_eq_getElem?_getD, List.getD_eq_getElem?_getD,
        List.getElem?_append_left hi]
    have hexp : l.length + 1 - 1 - i = (l.length - 1 - i) + 1 := by omega
    rw [hgd, hexp, pow_succ]
    by_cases hb : l.getD i false
    · rw [if_pos hb, if_pos hb]; ring
    · rw [if_neg hb, if_neg hb]; ring

/-- C4: generateTextSimhash agrees, for every digest oracle and every input
string, with the order-independent set-based description in the spec. -/
theorem C4_simhash_refines_spec (md5 : Char → List Nat) (text : String) :
    generateTextSimhash md5 text = generateTextSimhashSpec md5 text := by
  unfold generateTextSimhash generateTextSimhashSpec
  set cleaned := (text.data.map Char.toLower).filter (fun c => !(isJsSpace c)) with hc
  by_cases hemp : cleaned.isEmpty
  · simp [hemp]
  · simp only [hemp, if_false]
    have hne : cleaned ≠ [] := by
      intro h; rw [h] at hemp; exact hemp rfl
    have hdne : cleaned.dedup ≠ [] := by
      intro h
      exact hne ((List.dedup_eq_nil cleaned).mp h)
    have hdemp : cleaned.dedup.isEmpty = false := by
      cases h : cleaned.dedup with
      | nil => exact absurd h hdne
      | cons a t => rfl
    simp only [hdemp, if_false]
    refine congrArg natToHexPad16 ?_
    set vec := cleaned.dedup.foldl (simhashStep md5) (List.replicate 64 (0 : ℤ)) with hv
    have hvlen : vec.length = 64 := simhash_foldl_length md5 cleaned.dedup _ hdne
    rw [bitsToNat_eq_sum]
    have hmaplen : (vec.map (fun x => decide (0 < x))).length = 64 := by
      rw [List.length_map, hvlen]
    rw [hmaplen]
    apply Finset.sum_congr rfl
    intro i hi
    simp only [Finset.mem_range] at hi
    have hgd : (vec.map (fun x => decide (0 < x))).getD i false
        = decide (0 < vec.getD i 0) := by
      rw [List.getD_eq_getElem?_getD, List.getElem?_map]
      have hlt : i < vec.length := by omega
      rw [List.getElem?_eq_getElem hlt]
      simp [List.getD_eq_getElem?_getD, List.getElem?_eq_getElem hlt]
    rw [hgd]
    have hval : vec.getD i 0
        = (cleaned.dedup.map (fun t => if md5Bit md5 t i then (1 : ℤ) else -1)).sum := by
      rw [hv, simhash_foldl_getD md5 cleaned.dedup _ i hi]
      have hrep : (List.replicate 64 (0 : ℤ)).getD i 0 = 0 := by
        rw [List.getD_eq_getElem?_getD, List.getElem?_replicate]
        simp [hi]
      rw [hrep, zero_add]
    have hts : cleaned.dedup.toFinset = cleaned.toFinset := by
      ext a
      simp [List.mem_toFinset, List.mem_dedup]
    have hfin : cleaned.toFinset.sum (fun t => if md5Bit md5 t i then (1 : ℤ) else -1)
        = (cleaned.dedup.map (fun t => if md5Bit md5 t i then (1 : ℤ) else -1)).sum := by
      rw [← hts]
      exact List.sum_toFinset _ (List.nodup_dedup cleaned)
    rw [hval, ← hfin]
    simp [simhashBitSpec]

/-! pHash (HashManager.generatePHash).  The Jimp decode, the 32x32 bilinear
resize, the greyscale conversion and the floating-point 2D DCT are upstream
of the part the claim describes; the hash derivation is modelled from the
DCT coefficient matrix onward, with JavaScript numbers as exact rationals. -/

/-- Post-DCT part of HashManager.generatePHash: collect the top-left 8x8
block row-major, average the 63 AC coefficients, threshold strictly against
that average and hex-encode the 64 bits big-endian padded to 16 characters. -/
def generatePHash (dctMatrix : List (List ℚ)) : String :=
  let coefficients := (List.range 8).flatMap
    (fun y => (List.range 8).map (fun x => (dctMatrix.getD y []).getD x 0))
  let acCoefficients := coefficients.drop 1
  let average := acCoefficients.sum / (acCoefficients.length : ℚ)
  let binaryHash := coefficients.map (fun val => decide (val > average))
  natToHexPad16 (bitsToNat binaryHash)

/-- Modelled from the spec wording: the DCT coefficient at row-major index i
of the kept 8x8 block. -/
def pHashCoeff (m : List (List ℚ)) (i : Nat) : ℚ :=
  (m.getD (i / 8) []).getD (i % 8) 0

/-- Modelled from the spec wording: the mean of the 63 AC coefficients,
excluding the DC coefficient at index 0. -/
def pHashAcMean (m : List (List ℚ)) : ℚ :=
  (((List.range 64).drop 1).map (pHashCoeff m)).sum / 63

/-- Modelled from the spec wording: bit i is 1 exactly when coefficient i is
strictly greater than the AC mean; the 64 bits are read big-endian and
hex-encoded left-padded to 16 characters. -/
def generatePHashSpec (m : List (List ℚ)) : String :=
  natToHexPad16 ((Finset.range 64).sum
    (fun i => if pHashAcMean m < pHashCoeff m i then 2 ^ (63 - i) else 0))

theorem bitsToNat_map_range (n : Nat) (g : Nat → Bool) :
    bitsToNat ((List.range n).map g)
      = (Finset.range n).sum (fun i => if g i then 2 ^ (n - 1 - i) else 0) := by
  rw [bitsToNat_eq_sum]
  have hlen : ((List.range n).map g).length = n := by simp
  rw [hlen]
  apply Finset.sum_congr rfl
  intro i hi
  simp only [Finset.mem_range] at hi
  rw [getD_map_range n i g false hi]

/-- C3: for every 32x32 coefficient matrix, generatePHash agrees with the
spec description: top-left 8x8 block row-major, mean over the 63 AC
coefficients only, strict comparison, big-endian hex output. -/
theorem C3_phash_refines_spec (m : List (List ℚ))
    (hrows : m.length = 32) (hcols : ∀ r ∈ m, r.length = 32) :
    generatePHash m = generatePHashSpec m := by
  simp only [generatePHash, generatePHashSpec]
  have hco : (List.range 8).flatMap
      (fun y => (List.range 8).map (fun x => (m.getD y []).getD x 0))
      = (List.range 64).map (pHashCoeff m) := by
    rfl
  rw [hco]
  have hdrop : ((List.range 64).map (pHashCoeff m)).drop 1
      = ((List.range 64).drop 1).map (pHashCoeff m) := by
    rfl
  rw [hdrop]
  have hlen : (((List.range 64).drop 1).map (pHashCoeff m)).length = 63 := by simp
  rw [hlen]
  have hmean : (((List.range 64).drop 1).map (pHashCoeff m)).sum / ((63 : ℕ) : ℚ)
      = pHashAcMean m := by
    rw [pHashAcMean]
    norm_num
  rw [hmean]
  rw [List.map_map]
  have hcomp : ((fun val => decide (val > pHashAcMean m)) ∘ pHashCoeff m)
      = fun i => decide (pHashAcMean m < pHashCoeff m i) := by
    funext i
    rfl
  rw [hcomp, bitsToNat_map_range]
  refine congrArg natToHexPad16 ?_
  apply Finset.sum_congr rfl
  intro i _
  have hsub : 64 - 1 - i = 63 - i := by omega
  rw [hsub]
  by_cases hb : pHashAcMean m < pHashCoeff m i <;> simp [hb]

/-- Witness for C3 at a concrete 32x32 matrix. -/
theorem C3_witness :
    (List.replicate 32 (List.replicate 32 (0 : ℚ))).length = 32
    ∧ (∀ r ∈ List.replicate 32 (List.replicate 32 (0 : ℚ)), r.length = 32)
    ∧ generatePHash (List.replicate 32 (List.replicate 32 (0 : ℚ)))
        = generatePHashSpec (List.replicate 32 (List.replicate 32 (0 : ℚ))) :=
  ⟨by simp, fun r hr => by rw [List.eq_of_mem_replicate hr]; simp,
    C3_phash_refines_spec _ (by simp) (fun r hr => by rw [List.eq_of_mem_replicate hr]; simp)⟩

/-! Image sanitization (HashManager.sanitizeImageBuffer, the second source
variant where the .fix logic is factored into a method).  Buffers are lists
of byte values. -/

/-- The PNG magic 89 50 4E 47 0D 0A 1A 0A. -/
def pngSignature : List Nat := [0x89, 0x50, 0x4E, 0x47, 0x0D, 0x0A, 0x1A, 0x0A]

/-- The JPEG magic FF D8. -/
def jpegSignature : List Nat := [0xFF, 0xD8]

/-- The GIF magic, ASCII GIF. -/
def gifSignature : List Nat := [0x47, 0x49, 0x46]

/-- The ASCII bytes of IEND. -/
def iendChunk : List Nat := [0x49, 0x45, 0x4E, 0x44]

/-- The JPEG end-of-image marker FF D9. -/
def eoiMarker : List Nat := [0xFF, 0xD9]

/-- The GIF trailer byte 3B. -/
def gifTerminator : List Nat := [0x3B]

/-- Buffer.lastIndexOf and String.lastIndexOf for a subsequence: the
greatest start index at which the needle occurs contiguously, none when it
does not occur. -/
def lastIndexOf {α : Type} [BEq α] (hay needle : List α) : Option Nat :=
  ((List.range (hay.length + 1)).filter (fun i => needle.isPrefixOf (hay.drop i))).getLast?

/-- HashManager.sanitizeImageBuffer: trim trailing bytes after the logical
terminator of a PNG, JPEG or GIF buffer; return anything else unchanged. -/
def sanitizeImageBuffer (imageBuffer : List Nat) : List Nat :=
  if imageBuffer.take 8 = pngSignature then
    match lastIndexOf imageBuffer iendChunk with
    | some iendIndex =>
        if imageBuffer.length > iendIndex + 8 then imageBuffer.take (iendIndex + 8)
        else imageBuffer
    | none => imageBuffer
  else if imageBuffer.take 2 = jpegSignature then
    match lastIndexOf imageBuffer eoiMarker with
    | some eoiIndex =>
        if imageBuffer.length > eoiIndex + 2 then imageBuffer.take (eoiIndex + 2)
        else imageBuffer
    | none => imageBuffer
  else if imageBuffer.take 3 = gifSignature then
    match lastIndexOf imageBuffer gifTerminator with
    | some terminatorIndex =>
        if imageBuffer.length > terminatorIndex + 1 then imageBuffer.take (terminatorIndex + 1)
        else imageBuffer
    | none => imageBuffer
  else imageBuffer

/-- The three image families the sanitizer recognises. -/
inductive ImgFamily | png | jpeg | gif
deriving DecidableEq

/-- Modelled from the spec wording: which known family the leading magic
matches, if any. -/
def magicOf (b : List Nat) : Option ImgFamily :=
  if b.take 8 = pngSignature then some .png
  else if b.take 2 = jpegSignature then some .jpeg
  else if b.take 3 = gifSignature then some .gif
  else none

/-- Modelled from the spec wording: terminator byte sequence of a family. -/
def terminatorOf : ImgFamily → List Nat
  | .png => iendChunk
  | .jpeg => eoiMarker
  | .gif => gifTerminator

/-- Modelled from the spec wording: bytes kept past the terminator start
(IEND type plus CRC for PNG, the marker itself for JPEG and GIF). -/
def keepOf : ImgFamily → Nat
  | .png => 8
  | .jpeg => 2
  | .gif => 1

/-- Modelled from the spec wording: unchanged unless the magic matches a
known family and data follows the logical terminator, in which case the
prefix ending at the terminator is returned. -/
def sanitizeSpec (b : List Nat) : List Nat :=
  match magicOf b with
  | some fam =>
      match lastIndexOf b (terminatorOf fam) with
      | some i => if b.length > i + keepOf fam then b.take (i + keepOf fam) else b
      | none => b
  | none => b

/-- C7: sanitizeImageBuffer agrees with the spec description on every byte
buffer. -/
theorem C7_sanitize_refines_spec (imageBuffer : List Nat) :
    sanitizeImageBuffer imageBuffer = sanitizeSpec imageBuffer := by
  unfold sanitizeImageBuffer sanitizeSpec magicOf
  split_ifs <;> rfl

/-! LSH candidate generation (Utils.generateFromLSH).  The JavaScript Map
is modelled as an association list updated in insertion order, the Set of
candidate pair keys as a Finset of strings. -/

/-- The id and bucket keys returned by the getBucketInfo callback. -/
structure BucketInfo where
  id : Nat
  keys : List String

/-- Map.get(key).push(id) preceded by Map.set(key, []) when absent: append
the id to the entry of the key, creating the entry at the end when new. -/
def updateAssoc : List (String × List Nat) → String → Nat → List (String × List Nat)
  | [], k, id => [(k, [id])]
  | (k0, ids) :: rest, k, id =>
      if k0 = k then (k0, ids ++ [id]) :: rest
      else (k0, ids) :: updateAssoc rest k id

/-- Map.get on the association list: contents of the entry of a key, empty
when the key is absent. -/
def lookupIds : List (String × List Nat) → String → List Nat
  | [], _ => []
  | (k0, ids) :: rest, k => if k0 = k then ids else lookupIds rest k

/-- The keys.forEach loop of generateFromLSH: push the id under every key. -/
def addToBuckets (b : List (String × List Nat)) (id : Nat) (keys : List String) :
    List (String × List Nat) :=
  keys.foldl (fun acc k => updateAssoc acc k id) b

/-- The items.forEach loop of generateFromLSH: items with a falsy id or an
empty key list are skipped. -/
def buildBuckets {α : Type} (items : List α) (getBucketInfo : α → BucketInfo) :
    List (String × List Nat) :=
  items.foldl (fun b item =>
    if (getBucketInfo item).id = 0 ∨ (getBucketInfo item).keys = [] then b
    else addToBuckets b (getBucketInfo item).id (getBucketInfo item).keys) []

/-- The candidate pair key, written min-max over the two ids. -/
def pairKey (a b : Nat) : String := toString a ++ "-" ++ toString b

/-- The spread of new Set(ids) followed by a numeric ascending sort. -/
def uniqueSorted (ids : List Nat) : List Nat :=
  List.insertionSort (· ≤ ·) ids.dedup

/-- The nested i < j loops over a sorted deduplicated id list. -/
def pairsOf : List Nat → List String
  | [] => []
  | x :: xs => xs.map (pairKey x) ++ pairsOf xs

/-- The per-bucket body of the candidate loop: skip buckets holding fewer
than two entries or fewer than two distinct ids, otherwise add every pair of
the sorted deduplicated ids. -/
def lshStep (acc : Finset String) (kv : String × List Nat) : Finset String :=
  if kv.2.length < 2 then acc
  else if (uniqueSorted kv.2).length < 2 then acc
  else acc ∪ (pairsOf (uniqueSorted kv.2)).toFinset

/-- Utils.generateFromLSH: bucket every item id under each of its keys, then
emit the min-max pair key of every unordered pair of distinct ids sharing a
bucket of size at least two. -/
def generateFromLSH {α : Type} (items : List α) (getBucketInfo : α → BucketInfo) :
    Finset String :=
  (buildBuckets items getBucketInfo).foldl lshStep ∅

/-- Some item of the list carries this id and places it under this key. -/
def itemWithKeyHasId {α : Type} (items : List α) (getBucketInfo : α → BucketInfo)
    (id : Nat) (key : String) : Prop :=
  ∃ it ∈ items, (getBucketInfo it).id = id ∧ key ∈ (getBucketInfo it).keys

theorem lookupIds_updateAssoc (b : List (String × List Nat)) (k : String) (id : Nat)
    (key : String) (x : Nat) :
    x ∈ lookupIds (updateAssoc b k id) key
      ↔ x ∈ lookupIds b key ∨ (key = k ∧ x = id) := by
  induction b with
  | nil =>
    by_cases h : k = key
    · subst h
      simp [updateAssoc, lookupIds]
    · have hnk : ¬ (key = k) := fun hh => h hh.symm
      simp [updateAssoc, lookupIds, h, hnk]
  | cons kv rest ih =>
    obtain ⟨k0, ids⟩ := kv
    by_cases h0 : k0 = k
    · subst h0
      by_cases hk : k0 = key
      · subst hk
        simp [updateAssoc, lookupIds]
      · have hnk : ¬ (key = k0) := fun hh => hk hh.symm
        simp [updateAssoc, lookupIds, hk, hnk]
    · by_cases hk : k0 = key
      · subst hk
        simp [updateAssoc, lookupIds, h0]
      · simp [updateAssoc, lookupIds, h0, hk, ih]

theorem lookupIds_addToBuckets (keys : List String) (b : List (String × List Nat))
    (id : Nat) (key : String) (x : Nat) :
    x ∈ lookupIds (addToBuckets b id keys) key
      ↔ x ∈ lookupIds b key ∨ (key ∈ keys ∧ x = id) := by
  induction keys generalizing b with
  | nil => simp [addToBuckets]
  | cons k ks ih =>
    simp only [addToBuckets, List.foldl_cons]
    rw [show (ks.foldl (fun acc k2 => updateAssoc acc k2 id) (updateAssoc b k id))
        = addToBuckets (updateAssoc b k id) id ks from rfl]
    rw [ih]
    rw [lookupIds_updateAssoc]
    constructor
    · rintro ((h | ⟨hk, hx⟩) | ⟨hks, hx⟩)
      · exact Or.inl h
      · exact Or.inr ⟨by simp [hk], hx⟩
      · exact Or.inr ⟨by simp [hks], hx⟩
    · rintro (h | ⟨hmem, hx⟩)
      · exact Or.inl (Or.inl h)
      · rcases List.mem_cons.mp hmem with h1 | h2
        · exact Or.inl (Or.inr ⟨h1, hx⟩)
        · exact Or.inr ⟨h2, hx⟩

theorem lookupIds_buildBuckets_aux {α : Type} (items : List α)
    (getBucketInfo : α → BucketInfo) (b0 : List (String × List Nat))
    (key : String) (x : Nat) :
    x ∈ lookupIds (items.foldl (fun b item =>
        if (getBucketInfo item).id = 0 ∨ (getBucketInfo item).keys = [] then b
        else addToBuckets b (getBucketInfo item).id (getBucketInfo item).keys) b0) key
      ↔ x ∈ lookupIds b0 key
        ∨ (x ≠ 0 ∧ itemWithKeyHasId items getBucketInfo x key) := by
  induction items generalizing b0 with
  | nil => simp [itemWithKeyHasId]
  | cons it its ih =>
    simp only [List.foldl_cons]
    rw [ih]
    by_cases hskip : (getBucketInfo it).id = 0 ∨ (getBucketInfo it).keys = []
    · rw [if_pos hskip]
      constructor
      · rintro (h | ⟨hx, hw⟩)
        · exact Or.inl h
        · exact Or.inr ⟨hx, by
            obtain ⟨j, hj, hji, hjk⟩ := hw
            exact ⟨j, List.mem_cons_of_mem it hj, hji, hjk⟩⟩
      · rintro (h | ⟨hx, j, hj, hji, hjk⟩)
        · exact Or.inl h
        · rcases List.mem_cons.mp hj with rfl | hj2
          · exfalso
            rcases hskip with h0 | hnil
            · exact hx (hji ▸ h0)
            · rw [hnil] at hjk
              exact List.not_mem_nil key hjk
          · exact Or.inr ⟨hx, j, hj2, hji, hjk⟩
    · rw [if_neg hskip]
      push_neg at hskip
      rw [lookupIds_addToBuckets]
      constructor
      · rintro ((h | ⟨hk, hx⟩) | ⟨hx, j, hj, hji, hjk⟩)
        · exact Or.inl h
        · refine Or.inr ⟨?_, it, List.mem_cons_self it its, hx.symm, hk⟩
          rw [hx]
          exact hskip.1
        · exact Or.inr ⟨hx, j, List.mem_cons_of_mem it hj, hji, hjk⟩
      · rintro (h | ⟨hx, j, hj, hji, hjk⟩)
        · exact Or.inl (Or.inl h)
        · rcases List.mem_cons.mp hj with rfl | hj2
          · exact Or.inl (Or.inr ⟨hjk, hji.symm⟩)
          · exact Or.inr ⟨hx, j, hj2, hji, hjk⟩

theorem lookupIds_buildBuckets {α : Type} (items : List α)
    (getBucketInfo : α → BucketInfo) (key : String) (x : Nat) :
    x ∈ lookupIds (buildBuckets items getBucketInfo) key
      ↔ x ≠ 0 ∧ itemWithKeyHasId items getBucketInfo x key := by
  unfold buildBuckets
  rw [lookupIds_buildBuckets_aux]
  simp [lookupIds]

/-- The keys of the association list, in insertion order. -/
def bucketKeys (b : List (String × List Nat)) : List String := b.map Prod.fst

theorem bucketKeys_updateAssoc (b : List (String × List Nat)) (k : String) (id : Nat) :
    bucketKeys (updateAssoc b k id)
      = if k ∈ bucketKeys b then bucketKeys b else bucketKeys b ++ [k] := by
  induction b with
  | nil => simp [updateAssoc, bucketKeys]
  | cons kv rest ih =>
    obtain ⟨k0, ids⟩ := kv
    by_cases h0 : k0 = k
    · subst h0
      simp [updateAssoc, bucketKeys]
    · have hnk : ¬ (k = k0) := fun hh => h0 hh.symm
      simp only [updateAssoc, if_neg h0, bucketKeys, List.map_cons] at *
      rw [ih]
      by_cases hm : k ∈ List.map Prod.fst rest <;>
        simp [hm, hnk, List.mem_cons]

theorem keysNodup_updateAssoc (b : List (String × List Nat)) (k : String) (id : Nat)
    (h : (bucketKeys b).Nodup) : (bucketKeys (updateAssoc b k id)).Nodup := by
  rw [bucketKeys_updateAssoc]
  by_cases hm : k ∈ bucketKeys b
  · rw [if_pos hm]; exact h
  · rw [if_neg hm]
    exact List.Nodup.append h (List.nodup_singleton k)
      (by simp [List.disjoint_singleton, hm])

theorem keysNodup_addToBuckets (keys : List String) (b : List (String × List Nat))
    (id : Nat) (h : (bucketKeys b).Nodup) :
    (bucketKeys (addToBuckets b id keys)).Nodup := by
  induction keys generalizing b with
  | nil => exact h
  | cons k ks ih =>
    simp only [addToBuckets, List.foldl_cons]
    exact ih (updateAssoc b k id) (keysNodup_updateAssoc b k id h)

theorem keysNodup_buildBuckets {α : Type} (items : List α)
    (getBucketInfo : α → BucketInfo) :
    (bucketKeys (buildBuckets items getBucketInfo)).Nodup := by
  unfold buildBuckets
  have aux : ∀ (l : List α) (b0 : List (String × List Nat)), (bucketKeys b0).Nodup →
      (bucketKeys (l.foldl (fun b item =>
        if (getBucketInfo item).id = 0 ∨ (getBucketInfo item).keys = [] then b
        else addToBuckets b (getBucketInfo item).id (getBucketInfo item).keys) b0)).Nodup := by
    intro l
    induction l with
    | nil => intro b0 h; exact h
    | cons it its ih =>
      intro b0 h
      simp only [List.foldl_cons]
      by_cases hskip : (getBucketInfo it).id = 0 ∨ (getBucketInfo it).keys = []
      · rw [if_pos hskip]; exact ih b0 h
      · rw [if_neg hskip]
        exact ih _ (keysNodup_addToBuckets _ b0 _ h)
  exact aux items [] (by simp [bucketKeys])

theorem lookupIds_of_mem (b : List (String × List Nat)) (kv : String × List Nat)
    (hnd : (bucketKeys b).Nodup) (hmem : kv ∈ b) :
    lookupIds b kv.1 = kv.2 := by
  induction b with
  | nil => cases hmem
  | cons hd rest ih =>
    obtain ⟨k0, ids⟩ := hd
    simp only [bucketKeys, List.map_cons, List.nodup_cons] at hnd
    rcases List.mem_cons.mp hmem with rfl | h2
    · simp [lookupIds]
    · have hk1 : kv.1 ∈ bucketKeys rest := List.mem_map_of_mem Prod.fst h2
      have hne : ¬ (k0 = kv.1) := fun hh => hnd.1 (hh ▸ hk1)
      simp only [lookupIds, if_neg hne]
      exact ih hnd.2 h2

theorem mem_of_lookupIds_ne_nil (b : List (String × List Nat)) (key : String)
    (h : lookupIds b key ≠ []) : (key, lookupIds b key) ∈ b := by
  induction b with
  | nil => simp [lookupIds] at h
  | cons hd rest ih =>
    obtain ⟨k0, ids⟩ := hd
    by_cases hk : k0 = key
    · subst hk
      simp [lookupIds]
    · simp only [lookupIds, if_neg hk] at h ⊢
      exact List.mem_cons.mpr (Or.inr (ih h))

theorem pairsOf_mem (l : List Nat) (hs : l.Pairwise (· < ·)) (s : String) :
    s ∈ pairsOf l ↔ ∃ a b, a ∈ l ∧ b ∈ l ∧ a < b ∧ s = pairKey a b := by
  induction l with
  | nil => simp [pairsOf]
  | cons x xs ih =>
    have hpw := List.pairwise_cons.mp hs
    simp only [pairsOf, List.mem_append, List.mem_map]
    constructor
    · rintro (⟨b, hb, rfl⟩ | hrec)
      · exact ⟨x, b, List.mem_cons_self x xs, List.mem_cons_of_mem x hb, hpw.1 b hb, rfl⟩
      · obtain ⟨a, b, ha, hb, hab, rfl⟩ := (ih hpw.2).mp hrec
        exact ⟨a, b, List.mem_cons_of_mem x ha, List.mem_cons_of_mem x hb, hab, rfl⟩
    · rintro ⟨a, b, ha, hb, hab, rfl⟩
      rcases List.mem_cons.mp ha with rfl | ha2
      · rcases List.mem_cons.mp hb with rfl | hb2
        · exact absurd hab (lt_irrefl _)
        · exact Or.inl ⟨b, hb2, rfl⟩
      · rcases List.mem_cons.mp hb with rfl | hb2
        · exact absurd (lt_trans (hpw.1 a ha2) hab) (lt_irrefl _)
        · exact Or.inr ((ih hpw.2).mpr ⟨a, b, ha2, hb2, hab, rfl⟩)

theorem uniqueSorted_mem (ids : List Nat) (a : Nat) :
    a ∈ uniqueSorted ids ↔ a ∈ ids := by
  unfold uniqueSorted
  rw [(List.perm_insertionSort (· ≤ ·) ids.dedup).mem_iff]
  exact List.mem_dedup

theorem uniqueSorted_pairwise (ids : List Nat) :
    (uniqueSorted ids).Pairwise (· < ·) := by
  have hsorted : (uniqueSorted ids).Pairwise (· ≤ ·) :=
    List.sorted_insertionSort (· ≤ ·) ids.dedup
  have hnd : (uniqueSorted ids).Nodup :=
    ((List.perm_insertionSort (· ≤ ·) ids.dedup).nodup_iff).mpr (List.nodup_dedup ids)
  exact (List.Pairwise.and hsorted hnd).imp
    (fun h => lt_of_le_of_ne h.1 h.2)

theorem two_le_length_of_two_mem (l : List Nat) (a b : Nat)
    (ha : a ∈ l) (hb : b ∈ l) (hne : a ≠ b) : 2 ≤ l.length := by
  cases l with
  | nil => cases ha
  | cons x xs =>
    cases xs with
    | nil =>
      simp only [List.mem_singleton] at ha hb
      exact absurd (ha.trans hb.symm) hne
    | cons y ys => simp only [List.length_cons]; omega

theorem lsh_foldl_mem (bkts : List (String × List Nat)) (acc : Finset String) (s : String) :
    s ∈ bkts.foldl lshStep acc
      ↔ s ∈ acc ∨ ∃ kv ∈ bkts, 2 ≤ kv.2.length ∧ 2 ≤ (uniqueSorted kv.2).length
          ∧ s ∈ pairsOf (uniqueSorted kv.2) := by
  induction bkts generalizing acc with
  | nil => simp
  | cons kv rest ih =>
    simp only [List.foldl_cons]
    rw [ih]
    unfold lshStep
    by_cases h1 : kv.2.length < 2
    · rw [if_pos h1]
      constructor
      · rintro (h | ⟨kv2, hm, hrest⟩)
        · exact Or.inl h
        · exact Or.inr ⟨kv2, List.mem_cons_of_mem kv hm, hrest⟩
      · rintro (h | ⟨kv2, hm, hlen, hrest⟩)
        · exact Or.inl h
        · rcases List.mem_cons.mp hm with rfl | hm2
          · omega
          · exact Or.inr ⟨kv2, hm2, hlen, hrest⟩
    · rw [if_neg h1]
      by_cases h2 : (uniqueSorted kv.2).length < 2
      · rw [if_pos h2]
        constructor
        · rintro (h | ⟨kv2, hm, hrest⟩)
          · exact Or.inl h
          · exact Or.inr ⟨kv2, List.mem_cons_of_mem kv hm, hrest⟩
        · rintro (h | ⟨kv2, hm, hlen, hulen, hrest⟩)
          · exact Or.inl h
          · rcases List.mem_cons.mp hm with rfl | hm2
            · omega
            · exact Or.inr ⟨kv2, hm2, hlen, hulen, hrest⟩
      · rw [if_neg h2]
        constructor
        · rintro (h | ⟨kv2, hm, hrest⟩)
          · rcases Finset.mem_union.mp h with h | h
            · exact Or.inl h
            · exact Or.inr ⟨kv, List.mem_cons_self kv rest, by omega, by omega,
                List.mem_toFinset.mp h⟩
          · exact Or.inr ⟨kv2, List.mem_cons_of_mem kv hm, hrest⟩
        · rintro (h | ⟨kv2, hm, hlen, hulen, hrest⟩)
          · exact Or.inl (Finset.mem_union_left _ h)
          · rcases List.mem_cons.mp hm with rfl | hm2
            · exact Or.inl (Finset.mem_union_right _ (List.mem_toFinset.mpr hrest))
            · exact Or.inr ⟨kv2, hm2, hlen, hulen, hrest⟩

/-- C8: a string is emitted by generateFromLSH exactly when it is the
min-max pair key of two distinct bucketed ids that share some bucket key;
a Finset holds each qualifying pair exactly once. -/
theorem C8_lsh_candidate_pairs {α : Type} (items : List α)
    (getBucketInfo : α → BucketInfo) (s : String) :
    s ∈ generateFromLSH items getBucketInfo
      ↔ ∃ a b key, a ≠ 0 ∧ b ≠ 0 ∧ a < b ∧ s = pairKey a b
          ∧ itemWithKeyHasId items getBucketInfo a key
          ∧ itemWithKeyHasId items getBucketInfo b key := by
  unfold generateFromLSH
  rw [lsh_foldl_mem]
  simp only [Finset.not_mem_empty, false_or]
  constructor
  · rintro ⟨kv, hm, hlen, hulen, hpairs⟩
    obtain ⟨a, b, ha, hb, hab, rfl⟩ :=
      (pairsOf_mem _ (uniqueSorted_pairwise kv.2) _).mp hpairs
    have ha2 : a ∈ kv.2 := (uniqueSorted_mem kv.2 a).mp ha
    have hb2 : b ∈ kv.2 := (uniqueSorted_mem kv.2 b).mp hb
    have hlk : lookupIds (buildBuckets items getBucketInfo) kv.1 = kv.2 :=
      lookupIds_of_mem _ kv (keysNodup_buildBuckets items getBucketInfo) hm
    have hA := (lookupIds_buildBuckets items getBucketInfo kv.1 a).mp (hlk ▸ ha2)
    have hB := (lookupIds_buildBuckets items getBucketInfo kv.1 b).mp (hlk ▸ hb2)
    exact ⟨a, b, kv.1, hA.1, hB.1, hab, rfl, hA.2, hB.2⟩
  · rintro ⟨a, b, key, ha0, hb0, hab, rfl, hwa, hwb⟩
    have hA : a ∈ lookupIds (buildBuckets items getBucketInfo) key :=
      (lookupIds_buildBuckets items getBucketInfo key a).mpr ⟨ha0, hwa⟩
    have hB : b ∈ lookupIds (buildBuckets items getBucketInfo) key :=
      (lookupIds_buildBuckets items getBucketInfo key b).mpr ⟨hb0, hwb⟩
    set ids := lookupIds (buildBuckets items getBucketInfo) key with hids
    have hne : ids ≠ [] := by
      intro h; rw [h] at hA; exact List.not_mem_nil a hA
    refine ⟨(key, ids), mem_of_lookupIds_ne_nil _ key hne, ?_, ?_, ?_⟩
    · exact two_le_length_of_two_mem ids a b hA hB (Nat.ne_of_lt hab)
    · exact two_le_length_of_two_mem (uniqueSorted ids) a b
        ((uniqueSorted_mem ids a).mpr hA) ((uniqueSorted_mem ids b).mpr hB)
        (Nat.ne_of_lt hab)
    · exact (pairsOf_mem _ (uniqueSorted_pairwise ids) _).mpr
        ⟨a, b, (uniqueSorted_mem ids a).mpr hA, (uniqueSorted_mem ids b).mpr hB, hab, rfl⟩

/-- C10: an item with a falsy id or an empty key list lands in no bucket, so
removing it from the item list leaves the emitted candidate set unchanged. -/
theorem C10_falsy_item_ignored {α : Type} (getBucketInfo : α → BucketInfo)
    (items1 items2 : List α) (it : α)
    (h : (getBucketInfo it).id = 0 ∨ (getBucketInfo it).keys = []) :
    generateFromLSH (items1 ++ it :: items2) getBucketInfo
      = generateFromLSH (items1 ++ items2) getBucketInfo := by
  unfold generateFromLSH
  have hbk : buildBuckets (items1 ++ it :: items2) getBucketInfo
      = buildBuckets (items1 ++ items2) getBucketInfo := by
    unfold buildBuckets
    rw [List.foldl_append, List.foldl_append, List.foldl_cons, if_pos h]
  rw [hbk]

/-- Witness for C10: an item with id 0 shares its key with two kept items
yet contributes nothing. -/
theorem C10_witness :
    ((fun info : BucketInfo => info) ⟨0, ["k"]⟩).id = 0
    ∧ generateFromLSH ([] ++ (⟨0, ["k"]⟩ : BucketInfo) :: [⟨1, ["k"]⟩, ⟨2, ["k"]⟩]) (fun info => info)
        = generateFromLSH ([] ++ [⟨1, ["k"]⟩, ⟨2, ["k"]⟩]) (fun info => info) :=
  ⟨rfl, C10_falsy_item_ignored (fun info => info) [] [⟨1, ["k"]⟩, ⟨2, ["k"]⟩]
    ⟨0, ["k"]⟩ (Or.inl rfl)⟩

/-! LLM JSON extraction (AIManager.requestAI, the endpoints variant cited by
the spec).  The HTTP transport, the round-robin endpoint choice and
JSON.parse itself are external; JSON.parse is passed in as a parse oracle.
For concrete counterexamples a small executable JSON recogniser stands in
for JSON.parse. -/

/-- String.trim and the whitespace stripping of the fence regex. -/
def trimChars (l : List Char) : List Char :=
  ((l.dropWhile isJsSpace).reverse.dropWhile isJsSpace).reverse

/-- First index at which the needle occurs contiguously in the hay. -/
def findSub {α : Type} [BEq α] (hay needle : List α) : Option Nat :=
  ((List.range (hay.length + 1)).filter (fun i => needle.isPrefixOf (hay.drop i))).head?

/-- The capture group of the case-insensitive fence regex: the text between
the first occurrence of three backticks followed by json and the next three
backticks, stripped of surrounding whitespace; none when the regex cannot
match. -/
def fenceGroup (content : List Char) : Option (List Char) :=
  let lc := content.map Char.toLower
  match findSub lc "```json".data with
  | none => none
  | some i =>
      match findSub (lc.drop (i + 7)) "```".data with
      | none => none
      | some j => some (trimChars ((content.drop (i + 7)).take j))

/-- AIManager.requestAI extraction discipline: an empty body throws; a
matched fence with a nonempty group is parsed first, then the entire body;
both failing throws. -/
def requestAI {β : Type} (parse : String → Option β) (content : String) : Option β :=
  if (trimChars content.data).isEmpty then none
  else
    match fenceGroup content.data with
    | some g =>
        if g.isEmpty then parse content
        else
          match parse (String.mk g) with
          | some v => some v
          | none => parse content
    | none => parse content

/-- The fenced-block attempt in isolation. -/
def fenceAttempt {β : Type} (parse : String → Option β) (content : String) : Option β :=
  match fenceGroup content.data with
  | some g => if g.isEmpty then none else parse (String.mk g)
  | none => none

/-- Modelled from the spec wording: the largest balanced brace or bracket
substring, the brace form when the first opening brace precedes the first
opening bracket, the bracket form otherwise. -/
def balancedCandidate (content : List Char) : Option (List Char) :=
  let braceSub : Nat → Char → Option (List Char) := fun i closer =>
    match lastIndexOf content [closer] with
    | some l => if i ≤ l then some ((content.drop i).take (l - i + 1)) else none
    | none => none
  match findSub content ['\x7b'], findSub content ['['] with
  | none, none => none
  | some i, none => braceSub i '\x7d'
  | none, some j => braceSub j ']'
  | some i, some j => if i < j then braceSub i '\x7d' else braceSub j ']'

/-- The first attempt of a list that succeeds. -/
def firstSome {β : Type} (attempts : List (Option β)) : Option β :=
  attempts.foldl (fun acc o => acc.orElse (fun _ => o)) none

/-- Modelled from the spec wording of C2: fence content, then the largest
balanced brace or bracket substring, then the entire body; the first
successful parse wins. -/
def requestAIExtractSpec {β : Type} (parse : String → Option β) (content : String) :
    Option β :=
  firstSome [
    (fenceGroup content.data).bind (fun g => parse (String.mk g)),
    (balancedCandidate content.data).bind (fun sub => parse (String.mk sub)),
    parse content]

/-- Parser modes of the JSON recogniser: a value, the members of an object
after its opening brace, or the elements of an array after its opening
bracket. -/
inductive JMode | value | members | elements

/-- ASCII JSON whitespace. -/
def skipWs (l : List Char) : List Char :=
  l.dropWhile (fun c => c = ' ' ∨ c = '\t' ∨ c = '\n' ∨ c = '\r')

/-- An ASCII digit. -/
def isDigitC (c : Char) : Bool := ('0' ≤ c) && (c ≤ '9')

/-- Integer literals, a subset of JSON numbers. -/
def jsonNumber (l : List Char) : Option (List Char) :=
  let l1 := match l with
    | '-' :: r => r
    | _ => l
  if (l1.takeWhile isDigitC).isEmpty then none else some (l1.dropWhile isDigitC)

/-- Escape-free JSON string literals. -/
def jsonStringLit : List Char → Option (List Char)
  | '"' :: rest =>
      let body := rest.takeWhile (fun c => c ≠ '"' ∧ c ≠ '\\')
      (match rest.drop body.length with
        | '"' :: r => some r
        | _ => none)
  | _ => none

/-- Fuel-bounded recogniser for a JSON subset (objects, arrays, escape-free
strings, integers, booleans, null); it consumes one production and returns
the rest of the input. -/
def jsonRun (fuel : Nat) (mode : JMode) (l : List Char) : Option (List Char) :=
  match fuel with
  | 0 => none
  | fuel + 1 =>
    match mode with
    | .value =>
      let l := skipWs l
      match l with
      | '\x7b' :: rest =>
          (match skipWs rest with
            | '\x7d' :: r => some r
            | r => jsonRun fuel .members r)
      | '[' :: rest =>
          (match skipWs rest with
            | ']' :: r => some r
            | r => jsonRun fuel .elements r)
      | '"' :: _ => jsonStringLit l
      | _ =>
          if l.take 4 = "true".data then some (l.drop 4)
          else if l.take 5 = "false".data then some (l.drop 5)
          else if l.take 4 = "null".data then some (l.drop 4)
          else jsonNumber l
    | .members =>
      match jsonStringLit (skipWs l) with
      | none => none
      | some r1 =>
        match skipWs r1 with
        | ':' :: r2 =>
          (match jsonRun fuel .value r2 with
            | none => none
            | some r3 =>
              match skipWs r3 with
              | ',' :: r4 => jsonRun fuel .members r4
              | '\x7d' :: r5 => some r5
              | _ => none)
        | _ => none
    | .elements =>
      match jsonRun fuel .value l with
      | none => none
      | some r1 =>
        match skipWs r1 with
        | ',' :: r2 => jsonRun fuel .elements r2
        | ']' :: r3 => some r3
        | _ => none

/-- Whether the whole string is a JSON document of the recognised subset. -/
def jsonParsable (s : String) : Bool :=
  match jsonRun (s.length + 2) .value s.data with
  | some rest => (skipWs rest).isEmpty
  | none => false

/-- Concrete stand-in for JSON.parse returning the accepted text itself. -/
def jsonParse (s : String) : Option String :=
  if jsonParsable s then some s else none

/-- C2 as stated is false: the code has no balanced-substring stage.  On a
body holding a JSON object surrounded by prose and no fence, the claimed
pipeline recovers the object in stage (b) while requestAI throws. -/
theorem C2_counterexample :
    requestAI jsonParse "note \x7b\x22a\x22:1\x7d end" = none
    ∧ requestAIExtractSpec jsonParse "note \x7b\x22a\x22:1\x7d end"
        = some "\x7b\x22a\x22:1\x7d" := by
  constructor <;> decide

/-- C2 amended: requestAI tries the nonempty fenced-json group first and the
entire body second, returns the first successful parse, and fails when both
fail or the body is blank; there is no balanced-substring stage. -/
theorem C2_amended_extraction {β : Type} (parse : String → Option β) (content : String) :
    requestAI parse content =
      if (trimChars content.data).isEmpty then none
      else firstSome [fenceAttempt parse content, parse content] := by
  unfold requestAI firstSome fenceAttempt
  by_cases hb : (trimChars content.data).isEmpty
  · simp [hb]
  · simp only [hb, if_false, List.foldl]
    cases hf : fenceGroup content.data with
    | none => simp [Option.orElse]
    | some g =>
      by_cases hg : g.isEmpty
      · simp [hg, Option.orElse]
      · simp only [hg, if_false]
        cases hp : parse (String.mk g) <;> simp [Option.orElse]

/-! Ingest pipeline (Utils.processNewCave).  Database tables are modelled as
explicit state; HTTP downloads, Jimp pHash, MD5 and the two LLM calls
(analyze and checkForDuplicates) are oracles supplied by the environment.
Since index.ts constructs HashManager exactly when enableSimilarity is on,
AIManager exactly when enableAI is on and PendManager exactly when
enablePend is on, manager presence is identified with those flags.
Exceptions of awaited external calls are modelled by an optional throw
site; the similarity block swallows its own exceptions in the source and
is therefore modelled without one. -/

/-- Lifecycle states of a cave row. -/
inductive CStatus | preload | pending | active | delete
deriving DecidableEq

/-- The type tag of a cave_hash row. -/
inductive HType | text | image
deriving DecidableEq, BEq

/-- A cave_hash row (primary key is the whole triple). -/
structure CaveHashObject where
  cave : Nat
  hash : String
  type : HType
deriving DecidableEq

/-- A cave_meta row (primary key cave), fields of the endpoints variant. -/
structure CaveMetaObject where
  cave : Nat
  rating : ℚ
  type : String
  keywords : List String
deriving DecidableEq

/-- The relational state the pipeline reads and writes. -/
structure DBState where
  caveStatus : Nat → Option CStatus
  hashRows : List CaveHashObject
  metaRows : List CaveMetaObject

/-- Upsert of a cave row keyed by id, touching only the status. -/
def upsertCaveStatus (db : DBState) (id : Nat) (s : CStatus) : DBState :=
  { db with caveStatus := fun i => if i = id then some s else db.caveStatus i }

/-- Upsert of cave_hash rows: the primary key is the full triple, so for row
existence the upsert behaves as an append. -/
def upsertHashRows (db : DBState) (rows : List CaveHashObject) : DBState :=
  { db with hashRows := db.hashRows ++ rows }

/-- Upsert of cave_meta rows keyed by cave: new rows replace old rows with
the same cave id. -/
def upsertMetaRows (db : DBState) (rows : List CaveMetaObject) : DBState :=
  { db with metaRows := rows ++ db.metaRows.filter (fun r => rows.all (fun n => n.cave != r.cave)) }

/-- The message elements the pipeline inspects: text payloads, media files,
and everything else. -/
inductive Elem
  | text (content : String)
  | image (file : String)
  | other
deriving DecidableEq

/-- The slice of a cave object the pipeline uses. -/
structure CaveObj where
  id : Nat
  elements : List Elem

/-- The slice of the session the pipeline uses. -/
structure Sess where
  cid : String

/-- The configuration knobs read by processNewCave. -/
structure PConfig where
  enableSimilarity : Bool
  enableAI : Bool
  enablePend : Bool
  enableApprove : Bool
  onAIReviewFail : Bool
  textThreshold : ℚ
  imageThreshold : ℚ
  approveThreshold : ℚ
  adminChannel : String

/-- The output of AIManager.analyze for the new cave (already clamped). -/
structure AIAnalysis where
  rating : ℚ
  type : String
  keywords : List String

/-- Await points whose exceptions reach the outer catch block. -/
inductive ThrowSite | atDownload | atSaveFiles | atFinalUpsert
deriving DecidableEq

/-- External effects of one pipeline run. -/
structure PipelineEnv where
  download : String → Nat
  sanitize : Nat → Nat
  phash : Nat → String
  md5 : Char → List Nat
  analysis : Option AIAnalysis
  duplicateIds : List Nat
  throwSite : Option ThrowSite

/-- How one pipeline run ended. -/
inductive Outcome
  | ok (s : CStatus)
  | failSimilarity
  | failAIDuplicate
  | failAIRating
  | failThrow
deriving DecidableEq

/-- path.extname followed by toLowerCase: the last dot of the name onward. -/
def extnameLower (f : String) : String :=
  match lastIndexOf f.data ['.'] with
  | some i => String.mk ((f.data.drop i).map Char.toLower)
  | none => ""

/-- Membership of the extension in the sanitized image extension list. -/
def isImageExt (f : String) : Bool :=
  [".png", ".jpg", ".jpeg", ".webp"].contains (extnameLower f)

/-- Association lookup, the Map.get of the dedup maps. -/
def alookup {β : Type} : List (String × β) → String → Option β
  | [], _ => none
  | (k, v) :: rest, key => if k = key then some v else alookup rest key

/-- State of the media dedup loop: pHash to canonical file, canonical files
with their buffers, file remapping, and the media kept for processing. -/
structure DedupSt where
  hashToFile : List (String × String)
  canonical : List (String × Nat)
  remap : List (String × String)
  mediaForProcessing : List (String × Nat)

/-- One iteration of the dedup loop over the downloads: sanitize image
buffers, pHash them, and keep only the first file of each pHash. -/
def dedupeStep (env : PipelineEnv) (st : DedupSt) (d : String × Nat) : DedupSt :=
  let buf := if isImageExt d.1 then env.sanitize d.2 else d.2
  let h := env.phash buf
  match alookup st.hashToFile h with
  | some canon => { st with remap := st.remap ++ [(d.1, canon)] }
  | none =>
      { hashToFile := st.hashToFile ++ [(h, d.1)]
        canonical := st.canonical ++ [(d.1, buf)]
        remap := st.remap ++ [(d.1, d.1)]
        mediaForProcessing := st.mediaForProcessing ++ [(d.1, buf)] }

/-- Array.join(' ') over the text contents. -/
def joinSpace : List String → String
  | [] => ""
  | [x] => x
  | x :: xs => x ++ " " ++ joinSpace xs

/-- The combined text of the submission. -/
def combinedTextOf (elements : List Elem) : String :=
  joinSpace (elements.filterMap (fun e =>
    match e with
    | .text c => some c
    | _ => none))

/-- The text half of the similarity gate: none is a rejection, otherwise the
text hashes to hold for the later commit. -/
def textSimCheck (cfg : PConfig) (env : PipelineEnv) (db0 : DBState)
    (elements : List Elem) : Option (List String) :=
  let combinedText := combinedTextOf elements
  if combinedText ≠ "" then
    let newSimhash := generateTextSimhash env.md5 combinedText
    if newSimhash ≠ "" then
      if (db0.hashRows.filter (fun r => r.type == HType.text)).any
          (fun e => decide (cfg.textThreshold ≤ calculateSimilarity newSimhash e.hash)) then
        none
      else some [newSimhash]
    else some []
  else some []

/-- The image half of the similarity gate over the deduplicated media: none
is a rejection, otherwise the distinct image hashes to hold. -/
def imageSimCheck (cfg : PConfig) (env : PipelineEnv)
    (dbImageHashes : List CaveHashObject) (media : List (String × Nat)) :
    Option (List String) :=
  media.foldl (fun acc m =>
    match acc with
    | none => none
    | some hs =>
        if isImageExt m.1 then
          let imageHash := env.phash m.2
          if hs.contains imageHash then some hs
          else if dbImageHashes.any
              (fun e => decide (cfg.imageThreshold ≤ calculateSimilarity imageHash e.hash)) then
            none
          else some (hs ++ [imageHash])
        else some hs) (some [])

/-- The final status decision of processNewCave, none being the AI-review
rejection path. -/
def decideFinalStatus (cfg : PConfig) (needsManualReview : Bool)
    (analysisResult : Option AIAnalysis) : Option CStatus :=
  if needsManualReview then
    if cfg.enableAI && cfg.enableApprove then
      match analysisResult with
      | some a =>
          if cfg.approveThreshold ≤ a.rating then some .active
          else if cfg.onAIReviewFail then some .pending
          else none
      | none => some .pending
    else some .pending
  else some .active

/-- Utils.processNewCave: download, dedup, similarity gate, AI gate, hash
and meta commits, final status decision, rollback to delete on failure. -/
def processNewCave (cfg : PConfig) (env : PipelineEnv) (db0 : DBState)
    (newCave : CaveObj) (mediaToSave : List (String × String)) (sess : Sess) :
    DBState × Outcome :=
  if env.throwSite = some ThrowSite.atDownload then
    (upsertCaveStatus db0 newCave.id .delete, .failThrow)
  else
    let initialDownloads := mediaToSave.map (fun m => (m.2, env.download m.1))
    let st :=
      if cfg.enableSimilarity then
        initialDownloads.foldl (dedupeStep env) ⟨[], [], [], []⟩
      else ⟨[], initialDownloads, [], initialDownloads⟩
    let elements :=
      if cfg.enableSimilarity then
        newCave.elements.map (fun e =>
          match e with
          | .image f => .image ((alookup st.remap f).getD f)
          | e => e)
      else newCave.elements
    let simResult :=
      if cfg.enableSimilarity then
        match textSimCheck cfg env db0 elements with
        | none => none
        | some th =>
            match imageSimCheck cfg env
                (db0.hashRows.filter (fun r => r.type == HType.image))
                st.mediaForProcessing with
            | none => none
            | some ih => some (th, ih)
      else some ([], [])
    match simResult with
    | none => (upsertCaveStatus db0 newCave.id .delete, .failSimilarity)
    | some (textHashesToStore, imageHashesToStore) =>
      if env.throwSite = some ThrowSite.atSaveFiles then
        (upsertCaveStatus db0 newCave.id .delete, .failThrow)
      else
        let db1 :=
          if cfg.enableAI then
            match env.analysis with
            | some a => upsertMetaRows db0 [⟨newCave.id, a.rating, a.type, a.keywords⟩]
            | none => db0
          else db0
        let analysisResult := if cfg.enableAI then env.analysis else none
        let duplicateIds :=
          if cfg.enableAI then
            match env.analysis with
            | some _ => env.duplicateIds
            | none => []
          else []
        if duplicateIds ≠ [] then
          (upsertCaveStatus db1 newCave.id .delete, .failAIDuplicate)
        else
          let db2 :=
            if cfg.enableSimilarity then
              let rows := textHashesToStore.map
                  (fun h => (⟨newCave.id, h, HType.text⟩ : CaveHashObject))
                ++ imageHashesToStore.map
                  (fun h => (⟨newCave.id, h, HType.image⟩ : CaveHashObject))
              if rows ≠ [] then upsertHashRows db1 rows else db1
            else db1
          let needsManualReview := cfg.enablePend && (sess.cid != cfg.adminChannel)
          match decideFinalStatus cfg needsManualReview analysisResult with
          | none => (upsertCaveStatus db2 newCave.id .delete, .failAIRating)
          | some finalStatus =>
              if env.throwSite = some ThrowSite.atFinalUpsert then
                (upsertCaveStatus db2 newCave.id .delete, .failThrow)
              else
                (upsertCaveStatus db2 newCave.id finalStatus, .ok finalStatus)

/-- Concrete configuration for the C1 counterexample: AI on, everything
else off. -/
def c1Config : PConfig := ⟨false, true, false, false, true, 90, 90, 60, "admin"⟩

/-- Concrete environment for the C1 counterexample: the AI analysis
succeeds and the duplicate check reports cave 7. -/
def c1Env : PipelineEnv :=
  ⟨fun _ => 0, fun b => b, fun _ => "0", fun _ => [], some ⟨50, "Game", ["x"]⟩, [7], none⟩

/-- Initial database for the C1 counterexample: the new cave 5 is preloaded
and no hash or meta rows exist. -/
def c1DB : DBState := ⟨fun i => if i = 5 then some .preload else none, [], []⟩

/-- The submission of the C1 counterexample. -/
def c1Cave : CaveObj := ⟨5, [.text "hi"]⟩

/-- The session of the C1 counterexample. -/
def c1Sess : Sess := ⟨"chan"⟩

/-- C1 as stated is false: on an AI semantic-duplicate rejection the
pipeline has already upserted the cave_meta row of the submission before
checking for duplicates, so the failed ingest leaves a meta row carrying
the submission id even though the status is set to delete. -/
theorem C1_counterexample :
    (processNewCave c1Config c1Env c1DB c1Cave [] c1Sess).2 = Outcome.failAIDuplicate
    ∧ (processNewCave c1Config c1Env c1DB c1Cave [] c1Sess).1.caveStatus 5
        = some CStatus.delete
    ∧ ((processNewCave c1Config c1Env c1DB c1Cave [] c1Sess).1.metaRows.any
        (fun r => r.cave == 5)) = true := by
  refine ⟨by decide, by decide, by decide⟩

set_option maxHeartbeats 1600000 in
/-- C1 amended: every failing ingest sets the status to delete; similarity
rejections commit no cave_hash and no cave_meta row of the submission, and
AI semantic-duplicate rejections commit no cave_hash row (the cave_meta row
upserted before the duplicate check remains; AI-low-rating rejections and
errors thrown after the hash commit likewise leave committed rows). -/
theorem C1_amended_rollback (cfg : PConfig) (env : PipelineEnv) (db0 : DBState)
    (cave : CaveObj) (media : List (String × String)) (sess : Sess)
    (hfh : ∀ r ∈ db0.hashRows, r.cave ≠ cave.id)
    (hfm : ∀ r ∈ db0.metaRows, r.cave ≠ cave.id) :
    ((∀ s, (processNewCave cfg env db0 cave media sess).2 ≠ Outcome.ok s) →
        (processNewCave cfg env db0 cave media sess).1.caveStatus cave.id
          = some CStatus.delete)
    ∧ ((processNewCave cfg env db0 cave media sess).2 = Outcome.failSimilarity →
        (∀ r ∈ (processNewCave cfg env db0 cave media sess).1.hashRows, r.cave ≠ cave.id)
        ∧ (∀ r ∈ (processNewCave cfg env db0 cave media sess).1.metaRows, r.cave ≠ cave.id))
    ∧ ((processNewCave cfg env db0 cave media sess).2 = Outcome.failAIDuplicate →
        ∀ r ∈ (processNewCave cfg env db0 cave media sess).1.hashRows, r.cave ≠ cave.id) := by
  rcases hres : processNewCave cfg env db0 cave media sess with ⟨db2, out⟩
  simp only [hres]
  simp only [processNewCave] at hres
  repeat' split at hres
  all_goals injection hres with hdb hout
  all_goals subst hdb
  all_goals subst hout
  all_goals refine ⟨fun hno => ?_, fun h2 => ?_, fun h3 => ?_⟩
  all_goals first
    | exact absurd rfl (hno _)
    | simp_all [upsertCaveStatus, upsertMetaRows, upsertHashRows]

/-- Witness environment for the amended C1: the media download throws. -/
def c1wEnv : PipelineEnv :=
  ⟨fun _ => 0, fun b => b, fun _ => "0", fun _ => [], none, [], some .atDownload⟩

/-- Configuration for the C1 witness. -/
def c1wConfig : PConfig := ⟨false, false, false, false, true, 90, 90, 60, "admin"⟩

/-- Database for the C1 witness: the preloaded cave 5 and an unrelated hash
row of cave 9. -/
def c1wDB : DBState :=
  ⟨fun i => if i = 5 then some .preload else none, [⟨9, "abcd", HType.text⟩], []⟩

theorem C1_witness :
    (∀ r ∈ c1wDB.hashRows, r.cave ≠ c1Cave.id)
    ∧ (∀ r ∈ c1wDB.metaRows, r.cave ≠ c1Cave.id)
    ∧ ((processNewCave c1wConfig c1wEnv c1wDB c1Cave [] c1Sess).2 = Outcome.failThrow)
    ∧ (((∀ s, (processNewCave c1wConfig c1wEnv c1wDB c1Cave [] c1Sess).2 ≠ Outcome.ok s) →
        (processNewCave c1wConfig c1wEnv c1wDB c1Cave [] c1Sess).1.caveStatus c1Cave.id
          = some CStatus.delete)
      ∧ ((processNewCave c1wConfig c1wEnv c1wDB c1Cave [] c1Sess).2 = Outcome.failSimilarity →
          (∀ r ∈ (processNewCave c1wConfig c1wEnv c1wDB c1Cave [] c1Sess).1.hashRows,
            r.cave ≠ c1Cave.id)
          ∧ (∀ r ∈ (processNewCave c1wConfig c1wEnv c1wDB c1Cave [] c1Sess).1.metaRows,
            r.cave ≠ c1Cave.id))
      ∧ ((processNewCave c1wConfig c1wEnv c1wDB c1Cave [] c1Sess).2 = Outcome.failAIDuplicate →
          ∀ r ∈ (processNewCave c1wConfig c1wEnv c1wDB c1Cave [] c1Sess).1.hashRows,
            r.cave ≠ c1Cave.id)) :=
  ⟨by decide, by decide, by decide,
    C1_amended_rollback c1wConfig c1wEnv c1wDB c1Cave [] c1Sess (by decide) (by decide)⟩

theorem processNewCave_ok_exit (cfg : PConfig) (env : PipelineEnv) (db0 : DBState)
    (cave : CaveObj) (media : List (String × String)) (sess : Sess) :
    (∀ s, (processNewCave cfg env db0 cave media sess).2 = Outcome.ok s →
      decideFinalStatus cfg (cfg.enablePend && (sess.cid != cfg.adminChannel))
          (if cfg.enableAI then env.analysis else none) = some s
      ∧ (processNewCave cfg env db0 cave media sess).1.caveStatus cave.id = some s)
    ∧ ((processNewCave cfg env db0 cave media sess).2 = Outcome.failAIRating →
      decideFinalStatus cfg (cfg.enablePend && (sess.cid != cfg.adminChannel))
          (if cfg.enableAI then env.analysis else none) = none
      ∧ (processNewCave cfg env db0 cave media sess).1.caveStatus cave.id
          = some CStatus.delete) := by
  rcases hres : processNewCave cfg env db0 cave media sess with ⟨db2, out⟩
  simp only [hres]
  simp only [processNewCave] at hres
  repeat' split at hres
  all_goals injection hres with hdb hout
  all_goals subst hdb
  all_goals subst hout
  all_goals refine ⟨fun s hs => ?_, fun hr => ?_⟩
  all_goals simp_all [upsertCaveStatus]

/-- C9: when manual review is required and an auto-approve AI result exists,
the committed final status is active at or above the threshold, pending
below it with fallthrough configured, and delete (with no ok outcome) below
it with reject configured; without manual review an ok outcome is always
active. -/
theorem C9_final_status_policy (cfg : PConfig) (env : PipelineEnv) (db0 : DBState)
    (cave : CaveObj) (media : List (String × String)) (sess : Sess) (a : AIAnalysis)
    (hAI : cfg.enableAI = true) (hApp : cfg.enableApprove = true)
    (hAn : env.analysis = some a) :
    (cfg.enablePend = true → sess.cid ≠ cfg.adminChannel →
      ((cfg.approveThreshold ≤ a.rating →
          ∀ s, (processNewCave cfg env db0 cave media sess).2 = Outcome.ok s →
            s = CStatus.active)
        ∧ (a.rating < cfg.approveThreshold → cfg.onAIReviewFail = true →
          ∀ s, (processNewCave cfg env db0 cave media sess).2 = Outcome.ok s →
            s = CStatus.pending)
        ∧ (a.rating < cfg.approveThreshold → cfg.onAIReviewFail = false →
          (∀ s, (processNewCave cfg env db0 cave media sess).2 ≠ Outcome.ok s)
          ∧ ((processNewCave cfg env db0 cave media sess).2 = Outcome.failAIRating →
            (processNewCave cfg env db0 cave media sess).1.caveStatus cave.id
              = some CStatus.delete))))
    ∧ ((cfg.enablePend = false ∨ sess.cid = cfg.adminChannel) →
        ∀ s, (processNewCave cfg env db0 cave media sess).2 = Outcome.ok s →
          s = CStatus.active) := by
  have H := processNewCave_ok_exit cfg env db0 cave media sess
  constructor
  · intro hPend hCid
    have hnmr : (cfg.enablePend && (sess.cid != cfg.adminChannel)) = true := by
      rw [hPend]
      simp [bne_iff_ne, hCid]
    refine ⟨?_, ?_, ?_⟩
    · intro hrate s hs
      have hdec := (H.1 s hs).1
      rw [hnmr] at hdec
      simp [decideFinalStatus, hAI, hApp, hAn, if_pos hrate] at hdec
      exact hdec.symm
    · intro hrate hfail s hs
      have hdec := (H.1 s hs).1
      rw [hnmr] at hdec
      simp [decideFinalStatus, hAI, hApp, hAn, hfail, not_le.mpr hrate] at hdec
      exact hdec.symm
    · intro hrate hfail
      constructor
      · intro s hs
        have hdec := (H.1 s hs).1
        rw [hnmr] at hdec
        simp [decideFinalStatus, hAI, hApp, hAn, hfail, not_le.mpr hrate] at hdec
      · intro hr
        exact (H.2 hr).2
  · intro hor s hs
    have hnmr : (cfg.enablePend && (sess.cid != cfg.adminChannel)) = false := by
      rcases hor with h | h
      · rw [h]; rfl
      · rw [h]; simp
    have hdec := (H.1 s hs).1
    rw [hnmr] at hdec
    simp [decideFinalStatus] at hdec
    exact hdec.symm

/-- Configuration for the C9 witness: review, AI and auto-approve on. -/
def c9wConfig : PConfig := ⟨false, true, true, true, true, 90, 90, 60, "admin"⟩

/-- The AI analysis of the C9 witness, rated above the threshold. -/
def c9wAnalysis : AIAnalysis := ⟨80, "Game", ["x"]⟩

/-- Environment for the C9 witness: analysis succeeds, no duplicates. -/
def c9wEnv : PipelineEnv :=
  ⟨fun _ => 0, fun b => b, fun _ => "0", fun _ => [], some c9wAnalysis, [], none⟩

/-- Database for the C9 witness. -/
def c9wDB : DBState := ⟨fun i => if i = 5 then some .preload else none, [], []⟩

/-- The submission of the C9 witness. -/
def c9wCave : CaveObj := ⟨5, [.text "hi"]⟩

theorem C9_witness :
    c9wConfig.enablePend = true
    ∧ (Sess.mk "chan").cid ≠ c9wConfig.adminChannel
    ∧ c9wConfig.enableAI = true
    ∧ c9wConfig.enableApprove = true
    ∧ c9wEnv.analysis = some c9wAnalysis
    ∧ c9wConfig.approveThreshold ≤ c9wAnalysis.rating
    ∧ (processNewCave c9wConfig c9wEnv c9wDB c9wCave [] (Sess.mk "chan")).2
        = Outcome.ok CStatus.active
    ∧ CStatus.active = CStatus.active :=
  ⟨rfl, by decide, rfl, rfl, rfl, by decide, by decide,
    ((C9_final_status_policy c9wConfig c9wEnv c9wDB c9wCave [] (Sess.mk "chan")
        c9wAnalysis rfl rfl rfl).1 rfl (by decide)).1 (by decide) CStatus.active (by decide)⟩

end BestCave
